import Mathlib

/-!
Verification development for the Base64URL codec
(`supabase/functions/x402-payment/base64url/mod.ts`) and its buffer
compatibility shim (`buffer-polyfill.ts`).

Modelling conventions:
* A Uint8Array is a `List Nat`; theorems carry the bound `< 256` that the
  source type guarantees.
* A JS string used as a "binary string" (one char per byte) is a `List Char`.
* A thrown exception is `Option.none` / `Except.error`.
* Host builtins used by the source (`btoa`, `atob` per the WHATWG
  forgiving-base64 algorithm, `TextEncoder`/`TextDecoder` for UTF-8,
  `JSON.stringify`/`JSON.parse`) are modelled from their standard behaviour.
-/

namespace Base64Url

/-- The 64-character standard Base64 alphabet used by `btoa`/`atob`. -/
def B64_CHARS : List Char :=
  "ABCDEFGHIJKLMNOPQRSTUVWXYZabcdefghijklmnopqrstuvwxyz0123456789+/".toList

/-- The URL-safe Base64 alphabet (`-` and `_` instead of `+` and `/`). -/
def B64URL_CHARS : List Char :=
  "ABCDEFGHIJKLMNOPQRSTUVWXYZabcdefghijklmnopqrstuvwxyz0123456789-_".toList

/-- Character of the standard alphabet at a sextet value (< 64). -/
def sextetChar (n : Nat) : Char := B64_CHARS.getD n 'A'

/-- Index of a character in the standard Base64 alphabet. -/
def b64Index (c : Char) : Option Nat := B64_CHARS.findIdx? (· = c)

/-- Index of a character in the standard alphabet, defaulting to 0
(only used after the alphabet check of `atob` has succeeded). -/
def b64IndexD (c : Char) : Nat := (b64Index c).getD 0

/-- Sextet values of a byte sequence: groups of three 8-bit values become
four 6-bit values; a trailing group of one or two bytes becomes two or
three sextets (the bits `btoa` encodes before `=` padding). -/
def sextets : List Nat → List Nat
  | [] => []
  | [a] => [a / 4, a % 4 * 16]
  | [a, b] => [a / 4, a % 4 * 16 + b / 16, b % 16 * 4]
  | a :: b :: c :: rest =>
      a / 4 :: (a % 4 * 16 + b / 16) :: (b % 16 * 4 + c / 64) :: c % 64 :: sextets rest

/-- Number of `=` padding characters `btoa` appends for an input of `n`
bytes: 0, 2, 1 for `n % 3` = 0, 1, 2. -/
def padCount (n : Nat) : Nat := (3 - n % 3) % 3

/-- Inverse of `sextets`: reassemble bytes from sextet values, per the
forgiving-base64 decode step (4 sextets give 3 bytes; a final group of 2
or 3 sextets gives 1 or 2 bytes; a dangling single sextet, impossible
after the length check, yields nothing). -/
def deSextets : List Nat → List Nat
  | a :: b :: c :: d :: rest =>
      (a * 4 + b / 16) :: (b % 16 * 16 + c / 4) :: (c % 4 * 64 + d) :: deSextets rest
  | [a, b] => [a * 4 + b / 16]
  | [a, b, c] => [a * 4 + b / 16, b % 16 * 16 + c / 4]
  | _ => []

/-- JS `String.fromCharCode` restricted to code points that are valid Lean
characters (its argument goes through ToUint16; in this codebase it is only
applied to byte values < 256, where it is the code-point-preserving map). -/
def fromCharCode (n : Nat) : Char := Char.ofNat (n % 65536)

/-- The chunked loop of `encode` (mod.ts lines 33-42), written with a fuel
counter so it is structurally recursive: every iteration consumes at least
one byte, so `bytes.length` steps always suffice. -/
def chunkLoopAux : Nat → List Nat → List Char
  | _, [] => []
  | 0, _ :: _ => []
  | fuel + 1, bytes =>
      (bytes.take 8192).map fromCharCode ++ chunkLoopAux fuel (bytes.drop 8192)

/-- The chunked loop of `encode` (mod.ts lines 33-42): the byte sequence is
processed in 8192-byte chunks, each chunk appended to the binary string one
`String.fromCharCode` character at a time. -/
def chunkLoop (bytes : List Nat) : List Char :=
  chunkLoopAux bytes.length bytes

/-- Core of `btoa` on a list of code units already known to be bytes:
standard Base64 with `=` padding. -/
def btoaBytes (bs : List Nat) : List Char :=
  (sextets bs).map sextetChar ++ List.replicate (padCount bs.length) '='

/-- Model of the host `btoa`: fails (throws `InvalidCharacterError`) when a
code unit of the input exceeds 255, otherwise standard Base64. -/
def btoa (s : List Char) : Option (List Char) :=
  if s.all (fun c => c.toNat < 256) then some (btoaBytes (s.map Char.toNat)) else none

/-- Model of `String.prototype.replace` with a global single-character
pattern, as used in `encode` and `decode`. -/
def replaceAll (a b : Char) (s : List Char) : List Char :=
  s.map (fun c => if c = a then b else c)

/-- Model of `.replace(/=/g, "")`: remove every occurrence of a character. -/
def removeAll (a : Char) (s : List Char) : List Char :=
  s.filter (fun c => ¬ c = a)

/-- Model of `encode` (mod.ts lines 27-50) on a byte sequence: build the binary
string chunk by chunk, apply `btoa`, then replace `+` with `-`, `/` with
`_` and remove all `=`. `none` models the (unreachable for Uint8Array
input) exception from `btoa`. -/
def encode (bytes : List Nat) : Option String :=
  (btoa (chunkLoop bytes)).map
    (fun b64 => ⟨removeAll '=' (replaceAll '/' '_' (replaceAll '+' '-' b64))⟩)

/-- ASCII whitespace, which the forgiving-base64 algorithm strips. -/
def isAsciiWs (c : Char) : Bool :=
  c.toNat = 9 || c.toNat = 10 || c.toNat = 12 || c.toNat = 13 || c.toNat = 32

/-- Strip one or two trailing `=` characters (step 2 of forgiving-base64,
applied only when the length is a multiple of four): "if data ends with one
or two U+003D (=) code points, then remove them". -/
def stripPad (s : List Char) : List Char :=
  if s.reverse.take 2 = ['=', '='] then (s.reverse.drop 2).reverse
  else if s.reverse.take 1 = ['='] then (s.reverse.drop 1).reverse
  else s

/-- Steps 3-5 of forgiving-base64 on the whitespace- and padding-stripped
data: fail when the length is ≡ 1 (mod 4) or a character is outside the
standard alphabet; otherwise rebuild the bytes and return them as a binary
string. -/
def atobValidate (data : List Char) : Option (List Char) :=
  if data.length % 4 = 1 then none
  else if data.all (fun c => B64_CHARS.contains c) then
    some ((deSextets (data.map b64IndexD)).map fromCharCode)
  else none

/-- Model of the host `atob` (WHATWG forgiving-base64 decode): strip ASCII
whitespace; if the length is a multiple of four, strip up to two trailing
`=`; then validate and decode. -/
def atob (input : List Char) : Option (List Char) :=
  atobValidate
    (if (input.filter (fun c => ¬ isAsciiWs c)).length % 4 = 0
      then stripPad (input.filter (fun c => ¬ isAsciiWs c))
      else input.filter (fun c => ¬ isAsciiWs c))

/-- Model of `decode` (mod.ts lines 67-83): substitute `-` with `+` and `_` with
`/`, append `(4 - length % 4) % 4` padding characters, run `atob`, and read
the bytes back off the binary string with `charCodeAt`. -/
def decode (input : String) : Option (List Nat) :=
  (atob (replaceAll '_' '/' (replaceAll '-' '+' input.toList) ++
      List.replicate
        ((4 - (replaceAll '_' '/' (replaceAll '-' '+' input.toList)).length % 4) % 4)
        '=')).map
    (fun bin => bin.map Char.toNat)

/-- Modelled from the spec: `encode` "processing the whole sequence at
once" (§4.1 step 2 calls the chunking an implementation concern whose
output must equal the single-block computation), i.e. the same pipeline
with the binary string built in one pass. -/
def encodeSingleBlock (bytes : List Nat) : Option String :=
  (btoa (bytes.map fromCharCode)).map
    (fun b64 => ⟨removeAll '=' (replaceAll '/' '_' (replaceAll '+' '-' b64))⟩)

/-- The character `encode` emits for a sextet value: the standard alphabet
character after the `+`→`-` and `/`→`_` substitutions. -/
def encChar (n : Nat) : Char :=
  if (if sextetChar n = '+' then '-' else sextetChar n) = '/' then '_'
  else (if sextetChar n = '+' then '-' else sextetChar n)

/-- The character substitution `decode` applies to its input: `-`→`+`
followed by `_`→`/`. -/
def reSub (c : Char) : Char :=
  if (if c = '-' then '+' else c) = '_' then '/'
  else (if c = '-' then '+' else c)

/-! ### Structural lemmas about the codec -/

theorem chunkLoopAux_eq (fuel : Nat) :
    ∀ (bytes : List Nat), bytes.length ≤ fuel →
      chunkLoopAux fuel bytes = bytes.map fromCharCode := by
  induction fuel with
  | zero =>
    intro bytes h
    cases bytes with
    | nil => rfl
    | cons a l => simp at h
  | succ n ih =>
    intro bytes h
    cases bytes with
    | nil => rfl
    | cons a l =>
      show ((a :: l).take 8192).map fromCharCode ++ chunkLoopAux n ((a :: l).drop 8192) = _
      rw [ih ((a :: l).drop 8192) (by simp only [List.length_drop]; simp at h ⊢; omega)]
      rw [← List.map_append, List.take_append_drop]

theorem chunkLoop_eq (bytes : List Nat) : chunkLoop bytes = bytes.map fromCharCode :=
  chunkLoopAux_eq bytes.length bytes le_rfl

theorem toNat_fromCharCode {n : Nat} (h : n < 256) : (fromCharCode n).toNat = n := by
  have hmod : n % 65536 = n := by omega
  have hv : (n % 65536).isValidChar := Or.inl (by omega)
  simp only [fromCharCode, Char.ofNat, hv, dif_pos]
  show n % 65536 = n
  exact hmod

theorem sextets_lt : ∀ (bs : List Nat), (∀ x ∈ bs, x < 256) → ∀ v ∈ sextets bs, v < 64
  | [], _ => by simp [sextets]
  | [a], h => by
    have ha := h a (by simp)
    simp only [sextets, List.mem_cons, List.not_mem_nil, or_false]
    rintro v (rfl | rfl) <;> omega
  | [a, b], h => by
    have ha := h a (by simp)
    have hb := h b (by simp)
    simp only [sextets, List.mem_cons, List.not_mem_nil, or_false]
    rintro v (rfl | rfl | rfl) <;> omega
  | a :: b :: c :: rest, h => by
    have ha := h a (by simp)
    have hb := h b (by simp)
    have hc := h c (by simp)
    have ih := sextets_lt rest (fun x hx => h x (by simp [hx]))
    intro v hv
    simp only [sextets, List.mem_cons] at hv
    rcases hv with rfl | rfl | rfl | rfl | hv
    · omega
    · omega
    · omega
    · omega
    · exact ih v hv

theorem deSextets_sextets : ∀ (bs : List Nat), (∀ x ∈ bs, x < 256) →
    deSextets (sextets bs) = bs
  | [], _ => rfl
  | [a], h => by
    have ha := h a (by simp)
    show deSextets [a / 4, a % 4 * 16] = [a]
    simp only [deSextets, List.cons.injEq, and_true]
    omega
  | [a, b], h => by
    have ha := h a (by simp)
    have hb := h b (by simp)
    show deSextets [a / 4, a % 4 * 16 + b / 16, b % 16 * 4] = [a, b]
    simp only [deSextets, List.cons.injEq, and_true]
    constructor <;> omega
  | a :: b :: c :: rest, h => by
    have ha := h a (by simp)
    have hb := h b (by simp)
    have hc := h c (by simp)
    have ih := deSextets_sextets rest (fun x hx => h x (by simp [hx]))
    show deSextets (_ :: _ :: _ :: _ :: sextets rest) = a :: b :: c :: rest
    simp only [deSextets, ih, List.cons.injEq, and_true]
    refine ⟨by omega, by omega, by omega⟩

theorem deSextets_lt : ∀ (l : List Nat), (∀ v ∈ l, v < 64) →
    ∀ x ∈ deSextets l, x < 256
  | [], _ => by simp [deSextets]
  | [a], h => by simp [deSextets]
  | [a, b], h => by
    have ha := h a (by simp)
    have hb := h b (by simp)
    simp only [deSextets, List.mem_cons, List.not_mem_nil, or_false]
    rintro x rfl
    omega
  | [a, b, c], h => by
    have ha := h a (by simp)
    have hb := h b (by simp)
    have hc := h c (by simp)
    simp only [deSextets, List.mem_cons, List.not_mem_nil, or_false]
    rintro x (rfl | rfl) <;> omega
  | a :: b :: c :: d :: rest, h => by
    have ha := h a (by simp)
    have hb := h b (by simp)
    have hc := h c (by simp)
    have hd := h d (by simp)
    have ih := deSextets_lt rest (fun x hx => h x (by simp [hx]))
    intro x hx
    simp only [deSextets, List.mem_cons] at hx
    rcases hx with rfl | rfl | rfl | hx
    · omega
    · omega
    · omega
    · exact ih x hx

theorem sextets_length : ∀ (bs : List Nat),
    (sextets bs).length = (4 * bs.length + 2) / 3
  | [] => rfl
  | [_] => by simp only [sextets, List.length_cons, List.length_nil]
  | [_, _] => by simp only [sextets, List.length_cons, List.length_nil]
  | a :: b :: c :: rest => by
    simp only [sextets, List.length_cons]
    rw [sextets_length rest]
    omega

/-! ### Alphabet lemmas -/

set_option maxRecDepth 8192 in
theorem sextetChar_mem_of_lt : ∀ n < 64, sextetChar n ∈ B64_CHARS := by decide

theorem sextetChar_mem (n : Nat) : sextetChar n ∈ B64_CHARS := by
  by_cases h : n < 64
  · exact sextetChar_mem_of_lt n h
  · unfold sextetChar
    rw [List.getD_eq_default]
    · decide
    · have : B64_CHARS.length = 64 := by decide
      omega

set_option maxRecDepth 8192 in
theorem b64Index_sextetChar : ∀ n < 64, b64Index (sextetChar n) = some n := by decide

theorem b64IndexD_sextetChar {n : Nat} (h : n < 64) : b64IndexD (sextetChar n) = n := by
  unfold b64IndexD
  rw [b64Index_sextetChar n h]
  rfl

theorem b64IndexD_lt (c : Char) : b64IndexD c < 64 := by
  unfold b64IndexD b64Index
  cases h : B64_CHARS.findIdx? (· = c) with
  | none => decide
  | some i =>
    rw [List.findIdx?_eq_some_iff_findIdx_eq] at h
    have : B64_CHARS.length = 64 := by decide
    simp only [Option.getD_some]
    omega

set_option maxRecDepth 8192 in
theorem b64_not_ws_not_pad : ∀ c ∈ B64_CHARS,
    isAsciiWs c = false ∧ c ≠ '=' ∧ B64_CHARS.contains c = true := by decide

set_option maxRecDepth 8192 in
theorem reSub_encChar : ∀ c ∈ B64_CHARS,
    reSub (if (if c = '+' then '-' else c) = '/' then '_'
      else (if c = '+' then '-' else c)) = c := by decide

set_option maxRecDepth 8192 in
theorem encChar_mem_url : ∀ c ∈ B64_CHARS,
    (if (if c = '+' then '-' else c) = '/' then '_'
      else (if c = '+' then '-' else c)) ∈ B64URL_CHARS := by decide

set_option maxRecDepth 8192 in
theorem url_reSub_mem : ∀ c ∈ B64URL_CHARS,
    reSub c ∈ B64_CHARS ∧ reSub c ≠ '=' ∧ isAsciiWs (reSub c) = false := by decide

set_option maxRecDepth 8192 in
theorem url_not_special : ∀ c ∈ B64URL_CHARS,
    c ≠ '+' ∧ c ≠ '/' ∧ c ≠ '=' := by decide

/-! ### Padding-stripping lemmas -/

theorem stripPad_append (l : List Char) (k : Nat) (hk : k ≤ 2) (hl : '=' ∉ l) :
    stripPad (l ++ List.replicate k '=') = l := by
  have hmemtake : ∀ m, l.reverse.take m ≠ ['=', '='] ∧ l.reverse.take m ≠ ['='] := by
    intro m
    constructor <;>
      exact fun h =>
        hl (List.mem_reverse.mp (List.mem_of_mem_take (h ▸ List.mem_cons_self '=' _)))
  interval_cases k
  · rw [List.replicate, List.append_nil]
    unfold stripPad
    rw [if_neg (hmemtake 2).1, if_neg (hmemtake 1).2]
  · have hrev : (l ++ List.replicate 1 '=').reverse = '=' :: l.reverse := by simp
    unfold stripPad
    rw [hrev]
    have h1 : ('=' :: l.reverse).take 2 ≠ ['=', '='] := by
      cases hrl : l.reverse with
      | nil => simp [List.take]
      | cons c r =>
        have hc : c ≠ '=' := fun h =>
          hl (List.mem_reverse.mp (hrl ▸ (h ▸ List.mem_cons_self c r)))
        simp [List.take, hc]
    rw [if_neg h1]
    have h2 : ('=' :: l.reverse).take 1 = ['='] := by simp [List.take]
    rw [if_pos h2]
    simp
  · have hrev : (l ++ List.replicate 2 '=').reverse = '=' :: '=' :: l.reverse := by simp
    unfold stripPad
    rw [hrev]
    rw [if_pos (by simp [List.take])]
    simp

theorem stripPad_append3 (l : List Char) :
    stripPad (l ++ List.replicate 3 '=') = l ++ ['='] := by
  have hrev : (l ++ List.replicate 3 '=').reverse = '=' :: '=' :: '=' :: l.reverse := by
    simp [List.replicate]
  unfold stripPad
  rw [hrev]
  rw [if_pos (by simp [List.take])]
  simp

/-! ### The post-processing of `encode` and the shape of its output -/

set_option maxRecDepth 8192 in
theorem encChar_ne_pad : ∀ c ∈ B64_CHARS,
    (if (if c = '+' then '-' else c) = '/' then '_'
      else (if c = '+' then '-' else c)) ≠ '=' := by decide

theorem removeAll_pad_replicate (k : Nat) :
    removeAll '=' (List.replicate k '=') = [] := by
  unfold removeAll
  induction k with
  | zero => rfl
  | succ n ih => simp [List.replicate_succ, List.filter_cons, ih]

theorem post_btoaBytes (q : List Nat) :
    removeAll '=' (replaceAll '/' '_' (replaceAll '+' '-' (btoaBytes q))) =
      (sextets q).map encChar := by
  unfold btoaBytes replaceAll
  rw [List.map_append, List.map_append, List.map_replicate, List.map_replicate,
    List.map_map, List.map_map]
  have hrep : (if (if ('=' : Char) = '+' then '-' else '=') = '/' then '_'
      else (if ('=' : Char) = '+' then '-' else '=')) = '=' := rfl
  rw [hrep]
  unfold removeAll
  rw [List.filter_append]
  have h1 := removeAll_pad_replicate (padCount q.length)
  unfold removeAll at h1
  rw [h1, List.append_nil]
  rw [List.filter_eq_self.mpr]
  · rfl
  · intro a ha
    rw [List.mem_map] at ha
    obtain ⟨v, _, rfl⟩ := ha
    simpa [Function.comp] using encChar_ne_pad (sextetChar v) (sextetChar_mem v)

theorem map_toNat_fromCharCode (l : List Nat) (h : ∀ x ∈ l, x < 256) :
    (l.map fromCharCode).map Char.toNat = l := by
  rw [List.map_map]
  have hpt : ∀ x ∈ l, (Char.toNat ∘ fromCharCode) x = id x :=
    fun x hx => toNat_fromCharCode (h x hx)
  rw [List.map_congr_left hpt, List.map_id]

theorem encode_eq_some (bytes : List Nat) (h : ∀ x ∈ bytes, x < 256) :
    encode bytes = some (String.mk ((sextets bytes).map encChar)) := by
  unfold encode
  rw [chunkLoop_eq]
  unfold btoa
  rw [if_pos]
  · rw [Option.map_some', map_toNat_fromCharCode bytes h, post_btoaBytes bytes]
  · rw [List.all_eq_true]
    intro c hc
    rw [List.mem_map] at hc
    obtain ⟨x, hx, rfl⟩ := hc
    simp only [decide_eq_true_eq]
    rw [toNat_fromCharCode (h x hx)]
    exact h x hx

theorem encode_some_shape (bytes : List Nat) (s : String) (h : encode bytes = some s) :
    s = String.mk ((sextets ((bytes.map fromCharCode).map Char.toNat)).map encChar) := by
  unfold encode at h
  rw [chunkLoop_eq] at h
  unfold btoa at h
  by_cases hall : (bytes.map fromCharCode).all (fun c => c.toNat < 256) = true
  · rw [if_pos hall, Option.map_some',
      post_btoaBytes ((bytes.map fromCharCode).map Char.toNat)] at h
    exact (Option.some.injEq _ _ ▸ h).symm
  · rw [if_neg hall] at h
    simp at h

/-! ### Success and failure of `atob` -/

theorem atob_valid (l : List Char) (hmem : ∀ c ∈ l, c ∈ B64_CHARS)
    (hlen : l.length % 4 ≠ 1) :
    atob (l ++ List.replicate ((4 - l.length % 4) % 4) '=') =
      some ((deSextets (l.map b64IndexD)).map fromCharCode) := by
  unfold atob
  have hfil : (l ++ List.replicate ((4 - l.length % 4) % 4) '=').filter
      (fun c => ¬ isAsciiWs c) = l ++ List.replicate ((4 - l.length % 4) % 4) '=' := by
    rw [List.filter_eq_self]
    intro a ha
    rcases List.mem_append.mp ha with h1 | h1
    · have := (b64_not_ws_not_pad a (hmem a h1)).1
      simp [this]
    · rw [List.eq_of_mem_replicate h1]
      decide
  rw [hfil]
  have hlen0 : (l ++ List.replicate ((4 - l.length % 4) % 4) '=').length % 4 = 0 := by
    rw [List.length_append, List.length_replicate]
    omega
  rw [if_pos hlen0]
  rw [stripPad_append l _ (by omega)
    (fun hin => ((b64_not_ws_not_pad '=' (hmem '=' hin)).2.1 rfl))]
  unfold atobValidate
  rw [if_neg hlen]
  rw [if_pos]
  rw [List.all_eq_true]
  intro c hc
  exact (b64_not_ws_not_pad c (hmem c hc)).2.2

theorem atob_mod1 (l : List Char) (hws : ∀ c ∈ l, isAsciiWs c = false)
    (hlen : l.length % 4 = 1) :
    atob (l ++ List.replicate 3 '=') = none := by
  unfold atob
  have hfil : (l ++ List.replicate 3 '=').filter (fun c => ¬ isAsciiWs c) =
      l ++ List.replicate 3 '=' := by
    rw [List.filter_eq_self]
    intro a ha
    rcases List.mem_append.mp ha with h1 | h1
    · simp [hws a h1]
    · rw [List.eq_of_mem_replicate h1]
      decide
  rw [hfil]
  have hlen0 : (l ++ List.replicate 3 '=').length % 4 = 0 := by
    rw [List.length_append, List.length_replicate]
    omega
  rw [if_pos hlen0, stripPad_append3]
  unfold atobValidate
  rw [if_neg (by rw [List.length_append]; simp; omega)]
  rw [if_neg]
  intro hall
  rw [List.all_eq_true] at hall
  exact absurd (hall '=' (by simp)) (by decide)

theorem replaceAll_reSub (x : List Char) :
    replaceAll '_' '/' (replaceAll '-' '+' x) = x.map reSub := by
  simp only [replaceAll, List.map_map]
  rfl

set_option maxRecDepth 8192 in
theorem b64_reSub_fix : ∀ c ∈ B64_CHARS, reSub c ∈ B64_CHARS := by decide

theorem sextetChar_ge {n : Nat} (h : ¬ n < 64) : sextetChar n = 'A' := by
  unfold sextetChar
  rw [List.getD_eq_default]
  have : B64_CHARS.length = 64 := by decide
  omega

set_option maxRecDepth 8192 in
theorem reSub_encChar_eq (n : Nat) : reSub (encChar n) = sextetChar n := by
  by_cases h : n < 64
  · exact (by decide : ∀ m < 64, reSub (encChar m) = sextetChar m) n h
  · simp only [encChar, sextetChar_ge h]
    decide

set_option maxRecDepth 8192 in
theorem encChar_mem_url_all (n : Nat) : encChar n ∈ B64URL_CHARS := by
  by_cases h : n < 64
  · exact (by decide : ∀ m < 64, encChar m ∈ B64URL_CHARS) n h
  · simp only [encChar, sextetChar_ge h]
    decide

/-! ### Claims about `encode` and `decode` -/

/-- Round-trip helper shared by several claims: decoding the encoding of a
byte sequence gives the sequence back. -/
theorem encode_decode_id (bytes : List Nat) (h : ∀ x ∈ bytes, x < 256) :
    (encode bytes).bind decode = some bytes := by
  rw [encode_eq_some bytes h]
  show decode (String.mk ((sextets bytes).map encChar)) = some bytes
  unfold decode
  have htl : (String.mk ((sextets bytes).map encChar)).toList =
      (sextets bytes).map encChar := rfl
  rw [htl, replaceAll_reSub]
  have hsub : ((sextets bytes).map encChar).map reSub = (sextets bytes).map sextetChar := by
    rw [List.map_map]
    apply List.map_congr_left
    intro v _
    exact reSub_encChar_eq v
  rw [hsub]
  have hmem : ∀ c ∈ (sextets bytes).map sextetChar, c ∈ B64_CHARS := by
    intro c hc
    rw [List.mem_map] at hc
    obtain ⟨v, _, rfl⟩ := hc
    exact sextetChar_mem v
  have hlen : ((sextets bytes).map sextetChar).length = (4 * bytes.length + 2) / 3 := by
    rw [List.length_map, sextets_length]
  have hlen1 : ((sextets bytes).map sextetChar).length % 4 ≠ 1 := by omega
  rw [atob_valid _ hmem hlen1, Option.map_some']
  have hidx : ((sextets bytes).map sextetChar).map b64IndexD = sextets bytes := by
    rw [List.map_map]
    have hpt : ∀ v ∈ sextets bytes, (b64IndexD ∘ sextetChar) v = id v :=
      fun v hv => b64IndexD_sextetChar (sextets_lt bytes h v hv)
    rw [List.map_congr_left hpt, List.map_id]
  rw [hidx, deSextets_sextets bytes h, map_toNat_fromCharCode bytes h]

/-- C1: for every byte sequence `b` (Uint8Array contents, hence values
< 256), `decode (encode b) = b`: the encode/decode round trip is the
identity, for empty, short, and arbitrarily long inputs. -/
theorem decode_encode_roundtrip (bytes : List Nat) (h : ∀ x ∈ bytes, x < 256) :
    (encode bytes).bind decode = some bytes :=
  encode_decode_id bytes h

/-- Witness for C1 at the bytes of "Hel". -/
theorem decode_encode_roundtrip_witness :
    (∀ x ∈ ([72, 101, 108] : List Nat), x < 256) ∧
      (encode [72, 101, 108]).bind decode = some [72, 101, 108] :=
  ⟨by decide, decode_encode_roundtrip [72, 101, 108] (by decide)⟩

/-- C2: on input over the URL-safe alphabet whose length mod 4 is 0, 2 or
3, `decode` substitutes `-`→`+`, `_`→`/`, appends `(4 - length % 4) % 4`
padding characters so the adjusted string's length is a multiple of four,
and returns exactly the standard Base64 decoding (sextet lookup in the
standard alphabet, then byte reassembly) of the substituted text. -/
theorem decode_padding_correct (s : String)
    (halpha : ∀ c ∈ s.toList, c ∈ B64URL_CHARS) (hlen : s.length % 4 ≠ 1) :
    (s.toList.map reSub ++
        List.replicate ((4 - s.length % 4) % 4) '=').length % 4 = 0 ∧
    decode s = some (deSextets ((s.toList.map reSub).map b64IndexD)) := by
  have hlist : s.length = s.toList.length := rfl
  constructor
  · rw [List.length_append, List.length_map, List.length_replicate]
    omega
  · unfold decode
    rw [replaceAll_reSub]
    have hmem : ∀ c ∈ s.toList.map reSub, c ∈ B64_CHARS := by
      intro c hc
      rw [List.mem_map] at hc
      obtain ⟨v, hv, rfl⟩ := hc
      exact (url_reSub_mem v (halpha v hv)).1
    have hlen2 : (s.toList.map reSub).length % 4 ≠ 1 := by
      rw [List.length_map]
      omega
    rw [atob_valid _ hmem hlen2, Option.map_some']
    congr 1
    apply map_toNat_fromCharCode
    apply deSextets_lt
    intro v hv
    rw [List.mem_map] at hv
    obtain ⟨c, _, rfl⟩ := hv
    exact b64IndexD_lt c

/-- Witness for C2 at "SGVsbG8" (length 7 ≡ 3 mod 4). -/
theorem decode_padding_correct_witness :
    ((∀ c ∈ "SGVsbG8".toList, c ∈ B64URL_CHARS) ∧ "SGVsbG8".length % 4 ≠ 1) ∧
    (("SGVsbG8".toList.map reSub ++
        List.replicate ((4 - "SGVsbG8".length % 4) % 4) '=').length % 4 = 0 ∧
      decode "SGVsbG8" =
        some (deSextets (("SGVsbG8".toList.map reSub).map b64IndexD))) :=
  ⟨⟨by decide, by decide⟩, decode_padding_correct "SGVsbG8" (by decide) (by decide)⟩

/-- C3: every character `encode` outputs is in the 64-symbol URL-safe
alphabet; in particular the output never contains `+`, `/` or `=`. -/
theorem encode_alphabet_purity (bytes : List Nat) (s : String)
    (h : encode bytes = some s) :
    ∀ c ∈ s.toList, c ∈ B64URL_CHARS ∧ c ≠ '+' ∧ c ≠ '/' ∧ c ≠ '=' := by
  rw [encode_some_shape bytes s h]
  intro c hc
  have hc2 : c ∈ (sextets ((bytes.map fromCharCode).map Char.toNat)).map encChar := hc
  rw [List.mem_map] at hc2
  obtain ⟨v, _, rfl⟩ := hc2
  have hmem : encChar v ∈ B64URL_CHARS := encChar_mem_url_all v
  exact ⟨hmem, url_not_special _ hmem⟩

/-- Witness for C3 at the bytes of "hi". -/
theorem encode_alphabet_purity_witness :
    encode [104, 105] = some "aGk" ∧
      ∀ c ∈ "aGk".toList, c ∈ B64URL_CHARS ∧ c ≠ '+' ∧ c ≠ '/' ∧ c ≠ '=' :=
  ⟨by decide, encode_alphabet_purity [104, 105] "aGk" (by decide)⟩

/-- C4: the length of `encode`'s output is `ceil(n/3)*4` minus the number
of stripped padding characters (0, 2, 1 for `n mod 3` = 0, 1, 2), and the
empty input encodes to the empty string. -/
theorem encode_length :
    (∀ (bytes : List Nat) (s : String), encode bytes = some s →
      s.length = (bytes.length + 2) / 3 * 4 - (3 - bytes.length % 3) % 3) ∧
    encode ([] : List Nat) = some "" := by
  constructor
  · intro bytes s h
    rw [encode_some_shape bytes s h]
    show ((sextets ((bytes.map fromCharCode).map Char.toNat)).map encChar).length = _
    rw [List.length_map, sextets_length, List.length_map, List.length_map]
    omega
  · decide

/-- Witness for C4 at the bytes of "hi" (n = 2, one character stripped). -/
theorem encode_length_witness :
    encode [104, 105] = some "aGk" ∧
      "aGk".length = (([104, 105] : List Nat).length + 2) / 3 * 4 -
        (3 - ([104, 105] : List Nat).length % 3) % 3 :=
  ⟨by decide, encode_length.1 [104, 105] "aGk" (by decide)⟩

/-- C5: the 8192-byte chunked processing inside `encode` produces output
identical to processing the whole byte sequence as a single block, for
every input (hence in particular for lengths 8192, 8193 and 16384). -/
theorem encode_chunking_equiv (bytes : List Nat) :
    encode bytes = encodeSingleBlock bytes := by
  unfold encode encodeSingleBlock
  rw [chunkLoop_eq]

/-- C8 as stated is false: `decode "!!!!"` throws (the underlying
forgiving-base64 decoder rejects characters outside the standard
alphabet) instead of silently producing bytes. -/
theorem decode_rejects_some_invalid :
    ('!' ∈ "!!!!".toList ∧ '!' ∉ B64URL_CHARS) ∧ decode "!!!!" = none := by decide

/-- C8 amended: `decode` itself performs no validation against the
URL-safe alphabet, but not every input containing characters outside that
alphabet silently decodes. Any input over the *standard* Base64 alphabet
(including `+` and `/`, which `encode` never emits) with length ≢ 1 mod 4
silently decodes to a (mis-decoded) byte sequence, as do inputs with
trailing `=` or ASCII whitespace (both outside the URL-safe alphabet),
which the underlying forgiving-base64 decoder strips; some other inputs,
e.g. "!!!!", make that decoder throw instead. -/
theorem decode_no_urlsafe_validation :
    (∀ s : String, (∀ c ∈ s.toList, c ∈ B64_CHARS) → s.length % 4 ≠ 1 →
      ∃ bs, decode s = some bs) ∧
    ('+' ∉ B64URL_CHARS ∧ '/' ∉ B64URL_CHARS ∧ decode "+/A" = some [251, 240]) ∧
    ('=' ∉ B64URL_CHARS ∧ decode "AA==" = some [0]) ∧
    (' ' ∉ B64URL_CHARS ∧ '\t' ∉ B64URL_CHARS ∧ decode "AA \t" = some [0]) ∧
    decode "!!!!" = none := by
  refine ⟨?_, by decide, by decide, by decide, by decide⟩
  intro s hmem hlen
  unfold decode
  rw [replaceAll_reSub]
  have hmem2 : ∀ c ∈ s.toList.map reSub, c ∈ B64_CHARS := by
    intro c hc
    rw [List.mem_map] at hc
    obtain ⟨v, hv, rfl⟩ := hc
    exact b64_reSub_fix v (hmem v hv)
  have hlist : s.length = s.toList.length := rfl
  have hlen2 : (s.toList.map reSub).length % 4 ≠ 1 := by
    rw [List.length_map]
    omega
  exact ⟨_, by rw [atob_valid _ hmem2 hlen2, Option.map_some']⟩

/-- Witness for the amended C8 at "ab+/" (standard-alphabet input that
`encode` can never produce, silently accepted). -/
theorem decode_no_urlsafe_validation_witness :
    ((∀ c ∈ "ab+/".toList, c ∈ B64_CHARS) ∧ "ab+/".length % 4 ≠ 1) ∧
      ∃ bs, decode "ab+/" = some bs :=
  ⟨⟨by decide, by decide⟩,
    decode_no_urlsafe_validation.1 "ab+/" (by decide) (by decide)⟩

/-- C10: on input over the URL-safe alphabet with length ≡ 1 mod 4,
`decode` throws: the padding formula appends three `=`, the decoder strips
two of them and then rejects the remaining `=` as an invalid character. -/
theorem decode_mod1_throws (s : String)
    (halpha : ∀ c ∈ s.toList, c ∈ B64URL_CHARS) (hlen : s.length % 4 = 1) :
    decode s = none := by
  unfold decode
  rw [replaceAll_reSub]
  have hws : ∀ c ∈ s.toList.map reSub, isAsciiWs c = false := by
    intro c hc
    rw [List.mem_map] at hc
    obtain ⟨v, hv, rfl⟩ := hc
    exact (url_reSub_mem v (halpha v hv)).2.2
  have hlist : s.length = s.toList.length := rfl
  have hlen2 : (s.toList.map reSub).length % 4 = 1 := by
    rw [List.length_map]
    omega
  have hpadnum : (4 - (s.toList.map reSub).length % 4) % 4 = 3 := by omega
  rw [hpadnum, atob_mod1 _ hws hlen2]
  rfl

/-- Witness for C10 at "A" (length 1). -/
theorem decode_mod1_throws_witness :
    ((∀ c ∈ "A".toList, c ∈ B64URL_CHARS) ∧ "A".length % 4 = 1) ∧
      decode "A" = none :=
  ⟨⟨by decide, by decide⟩, decode_mod1_throws "A" (by decide) (by decide)⟩

/-! ### UTF-8: `TextEncoder` and `TextDecoder` -/

/-- Model of `TextEncoder` on a single Unicode scalar value: its UTF-8 bytes. -/
def utf8EncodeChar (c : Char) : List Nat :=
  if c.toNat < 128 then [c.toNat]
  else if c.toNat < 2048 then [192 + c.toNat / 64, 128 + c.toNat % 64]
  else if c.toNat < 65536 then
    [224 + c.toNat / 4096, 128 + c.toNat / 64 % 64, 128 + c.toNat % 64]
  else
    [240 + c.toNat / 262144, 128 + c.toNat / 4096 % 64, 128 + c.toNat / 64 % 64,
      128 + c.toNat % 64]

/-- Model of `TextEncoder`: the UTF-8 bytes of a string. -/
def utf8Encode (s : String) : List Nat :=
  (s.toList.map utf8EncodeChar).flatten

/-- The replacement character U+FFFD that `TextDecoder` emits on errors. -/
def replChar : Char := Char.ofNat 65533

/-- Model of `TextDecoder` for UTF-8 without the `fatal` flag, written with a fuel
counter so it is structurally recursive (every decoded unit consumes at
least one byte, so `bs.length` steps suffice): decode UTF-8, emitting
U+FFFD for invalid sequences (surrogates, overlong forms, stray
continuations, truncated sequences). The per-error replacement-character
granularity is approximated; the codec's claims only exercise valid
UTF-8. -/
def utf8DecodeAux : Nat → List Nat → List Char
  | _, [] => []
  | 0, _ :: _ => []
  | fuel + 1, b :: bs =>
    if b < 128 then Char.ofNat b :: utf8DecodeAux fuel bs
    else if b < 194 then replChar :: utf8DecodeAux fuel bs
    else if b < 224 then
      match bs with
      | b2 :: bs2 =>
        if 128 ≤ b2 ∧ b2 < 192 then
          Char.ofNat ((b - 192) * 64 + (b2 - 128)) :: utf8DecodeAux fuel bs2
        else replChar :: utf8DecodeAux fuel (b2 :: bs2)
      | [] => [replChar]
    else if b < 240 then
      match bs with
      | b2 :: b3 :: bs3 =>
        if (128 ≤ b2 ∧ b2 < 192) ∧ (128 ≤ b3 ∧ b3 < 192) then
          if 2048 ≤ (b - 224) * 4096 + (b2 - 128) * 64 + (b3 - 128) ∧
              ¬(55296 ≤ (b - 224) * 4096 + (b2 - 128) * 64 + (b3 - 128) ∧
                (b - 224) * 4096 + (b2 - 128) * 64 + (b3 - 128) < 57344) then
            Char.ofNat ((b - 224) * 4096 + (b2 - 128) * 64 + (b3 - 128)) ::
              utf8DecodeAux fuel bs3
          else replChar :: utf8DecodeAux fuel bs3
        else replChar :: utf8DecodeAux fuel bs
      | _ => [replChar]
    else if b < 245 then
      match bs with
      | b2 :: b3 :: b4 :: bs4 =>
        if (128 ≤ b2 ∧ b2 < 192) ∧ (128 ≤ b3 ∧ b3 < 192) ∧ (128 ≤ b4 ∧ b4 < 192) then
          if 65536 ≤ (b - 240) * 262144 + (b2 - 128) * 4096 + (b3 - 128) * 64 + (b4 - 128) ∧
              (b - 240) * 262144 + (b2 - 128) * 4096 + (b3 - 128) * 64 + (b4 - 128) <
                1114112 then
            Char.ofNat
                ((b - 240) * 262144 + (b2 - 128) * 4096 + (b3 - 128) * 64 + (b4 - 128)) ::
              utf8DecodeAux fuel bs4
          else replChar :: utf8DecodeAux fuel bs4
        else replChar :: utf8DecodeAux fuel bs
      | _ => [replChar]
    else replChar :: utf8DecodeAux fuel bs

/-- Model of `TextDecoder` on a UTF-8 byte list. -/
def utf8DecodeChars (bs : List Nat) : List Char :=
  utf8DecodeAux bs.length bs

/-- Model of `TextDecoder`: UTF-8 bytes to a string. -/
def utf8DecodeStr (bs : List Nat) : String :=
  String.mk (utf8DecodeChars bs)

/-- Model of `decodeToString` (mod.ts lines 99-101): `decode`, then
`new TextDecoder().decode` on the resulting bytes. -/
def decodeToString (input : String) : Option String :=
  (decode input).map (fun bs => utf8DecodeStr bs)

/-- Model of `encode` applied to a string input (mod.ts lines 27-30): the input is
first converted to its UTF-8 bytes by `TextEncoder`. -/
def encodeString (s : String) : Option String :=
  encode (utf8Encode s)

theorem char_toNat_range (c : Char) :
    c.toNat < 55296 ∨ (57343 < c.toNat ∧ c.toNat < 1114112) := c.valid

theorem utf8EncodeChar_lt (c : Char) : ∀ b ∈ utf8EncodeChar c, b < 256 := by
  have hval := char_toNat_range c
  unfold utf8EncodeChar
  split_ifs with h1 h2 h3 <;>
    · simp only [List.mem_cons, List.not_mem_nil, or_false]
      rintro b (rfl | rfl | rfl | rfl) <;> omega

theorem utf8EncodeChar_len_pos (c : Char) : 1 ≤ (utf8EncodeChar c).length := by
  unfold utf8EncodeChar
  split_ifs <;> simp

theorem utf8DecodeAux_encodeChar (c : Char) (rest : List Nat) (fuel : Nat) :
    utf8DecodeAux (fuel + 1) (utf8EncodeChar c ++ rest) =
      c :: utf8DecodeAux fuel rest := by
  have hval := char_toNat_range c
  by_cases h1 : c.toNat < 128
  · unfold utf8EncodeChar
    rw [if_pos h1]
    simp only [List.cons_append, List.nil_append]
    simp only [utf8DecodeAux]
    rw [if_pos h1, Char.ofNat_toNat]
  · by_cases h2 : c.toNat < 2048
    · unfold utf8EncodeChar
      rw [if_neg h1, if_pos h2]
      simp only [List.cons_append, List.nil_append]
      simp only [utf8DecodeAux]
      rw [if_neg (by omega), if_neg (by omega), if_pos (by omega)]
      show (if 128 ≤ 128 + c.toNat % 64 ∧ 128 + c.toNat % 64 < 192 then
          Char.ofNat ((192 + c.toNat / 64 - 192) * 64 + (128 + c.toNat % 64 - 128)) ::
            utf8DecodeAux fuel rest
        else replChar :: utf8DecodeAux fuel ((128 + c.toNat % 64) :: rest)) =
        c :: utf8DecodeAux fuel rest
      rw [if_pos (by omega)]
      have hv : (192 + c.toNat / 64 - 192) * 64 + (128 + c.toNat % 64 - 128) =
          c.toNat := by omega
      rw [hv, Char.ofNat_toNat]
    · by_cases h3 : c.toNat < 65536
      · unfold utf8EncodeChar
        rw [if_neg h1, if_neg h2, if_pos h3]
        simp only [List.cons_append, List.nil_append]
        simp only [utf8DecodeAux]
        rw [if_neg (by omega), if_neg (by omega), if_neg (by omega), if_pos (by omega)]
        show (if (128 ≤ 128 + c.toNat / 64 % 64 ∧ 128 + c.toNat / 64 % 64 < 192) ∧
              (128 ≤ 128 + c.toNat % 64 ∧ 128 + c.toNat % 64 < 192) then
            if 2048 ≤ (224 + c.toNat / 4096 - 224) * 4096 +
                  (128 + c.toNat / 64 % 64 - 128) * 64 + (128 + c.toNat % 64 - 128) ∧
                ¬(55296 ≤ (224 + c.toNat / 4096 - 224) * 4096 +
                    (128 + c.toNat / 64 % 64 - 128) * 64 + (128 + c.toNat % 64 - 128) ∧
                  (224 + c.toNat / 4096 - 224) * 4096 +
                    (128 + c.toNat / 64 % 64 - 128) * 64 + (128 + c.toNat % 64 - 128) <
                    57344) then
              Char.ofNat ((224 + c.toNat / 4096 - 224) * 4096 +
                  (128 + c.toNat / 64 % 64 - 128) * 64 + (128 + c.toNat % 64 - 128)) ::
                utf8DecodeAux fuel rest
            else replChar :: utf8DecodeAux fuel rest
          else replChar ::
            utf8DecodeAux fuel ((128 + c.toNat / 64 % 64) :: (128 + c.toNat % 64) :: rest)) =
          c :: utf8DecodeAux fuel rest
        rw [if_pos (by omega), if_pos (by omega)]
        have hv : (224 + c.toNat / 4096 - 224) * 4096 +
            (128 + c.toNat / 64 % 64 - 128) * 64 + (128 + c.toNat % 64 - 128) =
            c.toNat := by omega
        rw [hv, Char.ofNat_toNat]
      · unfold utf8EncodeChar
        rw [if_neg h1, if_neg h2, if_neg h3]
        simp only [List.cons_append, List.nil_append]
        simp only [utf8DecodeAux]
        rw [if_neg (by omega), if_neg (by omega), if_neg (by omega), if_neg (by omega),
          if_pos (by omega)]
        show (if (128 ≤ 128 + c.toNat / 4096 % 64 ∧ 128 + c.toNat / 4096 % 64 < 192) ∧
              (128 ≤ 128 + c.toNat / 64 % 64 ∧ 128 + c.toNat / 64 % 64 < 192) ∧
              (128 ≤ 128 + c.toNat % 64 ∧ 128 + c.toNat % 64 < 192) then
            if 65536 ≤ (240 + c.toNat / 262144 - 240) * 262144 +
                  (128 + c.toNat / 4096 % 64 - 128) * 4096 +
                  (128 + c.toNat / 64 % 64 - 128) * 64 + (128 + c.toNat % 64 - 128) ∧
                (240 + c.toNat / 262144 - 240) * 262144 +
                  (128 + c.toNat / 4096 % 64 - 128) * 4096 +
                  (128 + c.toNat / 64 % 64 - 128) * 64 + (128 + c.toNat % 64 - 128) <
                  1114112 then
              Char.ofNat ((240 + c.toNat / 262144 - 240) * 262144 +
                  (128 + c.toNat / 4096 % 64 - 128) * 4096 +
                  (128 + c.toNat / 64 % 64 - 128) * 64 + (128 + c.toNat % 64 - 128)) ::
                utf8DecodeAux fuel rest
            else replChar :: utf8DecodeAux fuel rest
          else replChar ::
            utf8DecodeAux fuel ((128 + c.toNat / 4096 % 64) :: (128 + c.toNat / 64 % 64) ::
              (128 + c.toNat % 64) :: rest)) =
          c :: utf8DecodeAux fuel rest
        rw [if_pos (by omega), if_pos (by omega)]
        have hv : (240 + c.toNat / 262144 - 240) * 262144 +
            (128 + c.toNat / 4096 % 64 - 128) * 4096 +
            (128 + c.toNat / 64 % 64 - 128) * 64 + (128 + c.toNat % 64 - 128) =
            c.toNat := by omega
        rw [hv, Char.ofNat_toNat]

theorem utf8_roundtrip_fuel (l : List Char) : ∀ fuel, l.length ≤ fuel →
    utf8DecodeAux fuel ((l.map utf8EncodeChar).flatten) = l := by
  induction l with
  | nil =>
    intro fuel _
    cases fuel <;> rfl
  | cons c cs ih =>
    intro fuel hf
    cases fuel with
    | zero => simp at hf
    | succ f =>
      rw [List.map_cons, List.flatten_cons, utf8DecodeAux_encodeChar c _ f,
        ih f (by simpa using hf)]

theorem length_le_utf8_length (l : List Char) :
    l.length ≤ ((l.map utf8EncodeChar).flatten).length := by
  induction l with
  | nil => simp
  | cons c cs ih =>
    simp only [List.map_cons, List.flatten_cons, List.length_append, List.length_cons]
    have := utf8EncodeChar_len_pos c
    omega

theorem utf8_roundtrip (l : List Char) :
    utf8DecodeChars ((l.map utf8EncodeChar).flatten) = l :=
  utf8_roundtrip_fuel l _ (length_le_utf8_length l)

theorem utf8Encode_lt (s : String) : ∀ x ∈ utf8Encode s, x < 256 := by
  intro x hx
  unfold utf8Encode at hx
  rw [List.mem_flatten] at hx
  obtain ⟨l, hl, hxl⟩ := hx
  rw [List.mem_map] at hl
  obtain ⟨c, _, rfl⟩ := hl
  exact utf8EncodeChar_lt c x hxl

/-- String round-trip helper shared by the string and JSON claims. -/
theorem encodeString_decodeToString (s : String) :
    (encodeString s).bind decodeToString = some s := by
  have h2 := encode_decode_id (utf8Encode s) (utf8Encode_lt s)
  unfold encodeString
  cases henc : encode (utf8Encode s) with
  | none =>
    rw [henc] at h2
    simp at h2
  | some e =>
    rw [henc] at h2
    show decodeToString e = some s
    unfold decodeToString
    rw [show decode e = some (utf8Encode s) from h2, Option.map_some']
    show some (utf8DecodeStr (utf8Encode s)) = some s
    unfold utf8DecodeStr utf8Encode
    rw [utf8_roundtrip]
    rfl

/-- C6: `decodeToString` equals `decode` followed by UTF-8
byte-sequence-to-text conversion, and `decodeToString (encode s) = s` for
every UTF-8 string `s`. -/
theorem decodeToString_spec :
    (∀ input : String, decodeToString input = (decode input).map utf8DecodeStr) ∧
    (∀ s : String, (encodeString s).bind decodeToString = some s) :=
  ⟨fun _ => rfl, encodeString_decodeToString⟩

/-! ### The buffer compatibility shim (`buffer-polyfill.ts`) -/

/-- A JS value passed as the first argument of `Buffer.from`. -/
inductive JsVal where
  | str : String → JsVal
  | bytes : List Nat → JsVal
  | arrbuf : List Nat → JsVal
deriving DecidableEq

/-- The second argument of `Buffer.from`: an encoding name, a numeric
offset, or absent (`undefined`). -/
inductive EncOrOff where
  | enc : String → EncOrOff
  | num : Nat → EncOrOff
  | undef : EncOrOff
deriving DecidableEq

/-- The patched `Buffer.from` (buffer-polyfill.ts lines 26-48), over an
abstract host factory `orig` (the captured `originalFrom`, taking the
value, the encoding-or-offset, and an optional third argument; `none` in
the third slot models a call site that does not pass it). In the
"base64url"-with-string branch the source calls `Buffer.from(decoded)` on
the decoded bytes; that re-entrant call reaches this same function with an
undefined second argument and reduces to `orig (bytes decoded) undef
none`, which is inlined here. A thrown `TypeError`, or the
`InvalidCharacterError` propagating out of `decode`, is `Except.error`. -/
def patchedFrom (orig : JsVal → EncOrOff → Option Nat → Except String (List Nat))
    (value : JsVal) (encodingOrOffset : EncOrOff) (length : Option Nat) :
    Except String (List Nat) :=
  match encodingOrOffset with
  | .enc e =>
    if e = "base64url" then
      match value with
      | .str s =>
        match decode s with
        | some bs => orig (.bytes bs) .undef none
        | none => .error "InvalidCharacterError"
      | _ => .error "TypeError"
    else orig value (.enc e) none
  | .num n => orig value (.num n) length
  | .undef => orig value .undef none

/-- C9: with encoding "base64url", the patched factory rejects non-string
values with a type error and, on a string, hands the host factory the
bytes of `decode(value)`; any other encoding name, and numeric
offset/length arguments, delegate to the original host factory
behaviour. -/
theorem bufferFrom_spec :
    ∀ (orig : JsVal → EncOrOff → Option Nat → Except String (List Nat))
      (len : Option Nat),
    (∀ s bs, decode s = some bs →
      patchedFrom orig (.str s) (.enc "base64url") len =
        orig (.bytes bs) .undef none) ∧
    (∀ v, (∀ s, v ≠ .str s) →
      patchedFrom orig v (.enc "base64url") len = .error "TypeError") ∧
    (∀ v e, e ≠ "base64url" →
      patchedFrom orig v (.enc e) len = orig v (.enc e) none) ∧
    (∀ v n, patchedFrom orig v (.num n) len = orig v (.num n) len) := by
  intro orig len
  refine ⟨?_, ?_, ?_, ?_⟩
  · intro s bs h
    simp [patchedFrom, h]
  · intro v hv
    cases v with
    | str s => exact absurd rfl (hv s)
    | bytes b => simp [patchedFrom]
    | arrbuf b => simp [patchedFrom]
  · intro v e he
    simp [patchedFrom, he]
  · intro v n
    rfl

/-- Witness for C9 with a stub host factory. -/
theorem bufferFrom_spec_witness :
    (decode "AA" = some [0] ∧ ("hex" : String) ≠ "base64url") ∧
    (patchedFrom (fun _ _ _ => Except.ok []) (.str "AA") (.enc "base64url") none =
        (fun (_ : JsVal) (_ : EncOrOff) (_ : Option Nat) =>
          Except.ok ([] : List Nat)) (.bytes [0]) .undef none ∧
      patchedFrom (fun _ _ _ => Except.ok []) (.bytes [1]) (.enc "base64url") none =
        Except.error "TypeError" ∧
      patchedFrom (fun _ _ _ => Except.ok []) (.str "x") (.enc "hex") none =
        (fun (_ : JsVal) (_ : EncOrOff) (_ : Option Nat) =>
          Except.ok ([] : List Nat)) (.str "x") (.enc "hex") none ∧
      patchedFrom (fun _ _ _ => Except.ok []) (.str "x") (.num 3) (some 5) =
        (fun (_ : JsVal) (_ : EncOrOff) (_ : Option Nat) =>
          Except.ok ([] : List Nat)) (.str "x") (.num 3) (some 5)) :=
  ⟨⟨by decide, by decide⟩,
    (bufferFrom_spec (fun _ _ _ => Except.ok []) none).1 "AA" [0] (by decide),
    (bufferFrom_spec (fun _ _ _ => Except.ok []) none).2.1 (.bytes [1])
      (fun s h => JsVal.noConfusion h),
    (bufferFrom_spec (fun _ _ _ => Except.ok []) none).2.2.1 (.str "x") "hex" (by decide),
    (bufferFrom_spec (fun _ _ _ => Except.ok []) (some 5)).2.2.2 (.str "x") 3⟩

/-! ### JSON: `JSON.stringify` and `JSON.parse`

JS `JSON` values carry IEEE-754 double numbers; this model restricts
numbers to (safe) integers, where `JSON.stringify` prints the plain
decimal form and `JSON.parse` reads it back — fraction and exponent forms
are outside the model and the modelled parser rejects them. JS strings are
UTF-16 and may contain lone surrogates; Lean `Char` is a Unicode scalar
value, so `\uXXXX` escapes denoting surrogate halves are rejected by the
modelled parser (`JSON.stringify` itself only emits `\u00xx` escapes for
control characters). Object members are an ordered association list,
matching the textual order `JSON.stringify` emits and `JSON.parse`
reads. -/

/-- A JSON value (see the module comment for the number/string model). -/
inductive Jval where
  | jnull : Jval
  | jbool : Bool → Jval
  | jnum : Int → Jval
  | jstr : List Char → Jval
  | jarr : List Jval → Jval
  | jobj : List (List Char × Jval) → Jval

/-- The opening curly bracket, U+007B. -/
def lbrace : Char := Char.ofNat 123

/-- The closing curly bracket, U+007D. -/
def rbrace : Char := Char.ofNat 125

/-- Decimal digits of a natural number, least significant first. -/
def natDigitsRev (n : Nat) : List Char :=
  if h : n < 10 then [Char.ofNat (48 + n)]
  else Char.ofNat (48 + n % 10) :: natDigitsRev (n / 10)
decreasing_by omega

/-- Decimal representation of a natural number. -/
def natToChars (n : Nat) : List Char := (natDigitsRev n).reverse

/-- Model of `JSON.stringify` on an integer (JS prints safe integers in plain
decimal form). -/
def intToChars (i : Int) : List Char :=
  if i < 0 then '-' :: natToChars i.natAbs else natToChars i.natAbs

/-- Lowercase hex digit, as `JSON.stringify` emits inside `\u00xx`. -/
def hexDigit (n : Nat) : Char :=
  if n < 10 then Char.ofNat (48 + n) else Char.ofNat (87 + n)

/-- Model of `JSON.stringify` string escaping: quote and backslash get a backslash;
backspace, tab, newline, form feed, carriage return use their short forms;
other control characters use `\u00xx`; everything else is emitted
literally. -/
def escapeChar (c : Char) : List Char :=
  if c = '"' then ['\\', '"']
  else if c = '\\' then ['\\', '\\']
  else if c.toNat = 8 then ['\\', 'b']
  else if c.toNat = 9 then ['\\', 't']
  else if c.toNat = 10 then ['\\', 'n']
  else if c.toNat = 12 then ['\\', 'f']
  else if c.toNat = 13 then ['\\', 'r']
  else if c.toNat < 32 then
    ['\\', 'u', '0', '0', hexDigit (c.toNat / 16), hexDigit (c.toNat % 16)]
  else [c]

/-- A JSON string literal: quote, escaped characters, quote. -/
def strLit (s : List Char) : List Char :=
  '"' :: (s.map escapeChar).flatten ++ ['"']

mutual

/-- Model of `JSON.stringify` (no spacing — the canonical one-line form the source
produces). -/
def stringify : Jval → List Char
  | .jnull => ['n', 'u', 'l', 'l']
  | .jbool true => ['t', 'r', 'u', 'e']
  | .jbool false => ['f', 'a', 'l', 's', 'e']
  | .jnum i => intToChars i
  | .jstr s => strLit s
  | .jarr xs => '[' :: stringifyElems xs ++ [']']
  | .jobj ms => lbrace :: stringifyMembers ms ++ [rbrace]

/-- Comma-separated array elements. -/
def stringifyElems : List Jval → List Char
  | [] => []
  | [x] => stringify x
  | x :: y :: xs => stringify x ++ ',' :: stringifyElems (y :: xs)

/-- Comma-separated `"key":value` object members. -/
def stringifyMembers : List (List Char × Jval) → List Char
  | [] => []
  | [(k, v)] => strLit k ++ ':' :: stringify v
  | (k, v) :: m :: ms => strLit k ++ ':' :: stringify v ++ ',' :: stringifyMembers (m :: ms)

end

/-- JSON insignificant whitespace. -/
def jsonWs (c : Char) : Bool :=
  c.toNat = 32 || c.toNat = 9 || c.toNat = 10 || c.toNat = 13

/-- Skip insignificant whitespace. -/
def skipWs (cs : List Char) : List Char := cs.dropWhile jsonWs

/-- Is `c` an ASCII decimal digit? -/
def isDigit (c : Char) : Bool := 48 ≤ c.toNat && c.toNat ≤ 57

/-- Value of a hex digit (both cases accepted, as in JSON). -/
def hexVal (c : Char) : Option Nat :=
  if 48 ≤ c.toNat ∧ c.toNat ≤ 57 then some (c.toNat - 48)
  else if 97 ≤ c.toNat ∧ c.toNat ≤ 102 then some (c.toNat - 87)
  else if 65 ≤ c.toNat ∧ c.toNat ≤ 70 then some (c.toNat - 55)
  else none

/-- Parse the body of a JSON string literal after the opening quote,
returning the characters and the input following the closing quote. One
fuel unit per consumed escape or character, so `input.length` units always
suffice. -/
def parseStrBody : Nat → List Char → Option (List Char × List Char)
  | 0, _ => none
  | _ + 1, [] => none
  | fuel + 1, c :: cs =>
    if c = '"' then some ([], cs)
    else if c = '\\' then
      match cs with
      | [] => none
      | e :: cs2 =>
        if e = '"' then (parseStrBody fuel cs2).map (fun r => ('"' :: r.1, r.2))
        else if e = '\\' then (parseStrBody fuel cs2).map (fun r => ('\\' :: r.1, r.2))
        else if e = '/' then (parseStrBody fuel cs2).map (fun r => ('/' :: r.1, r.2))
        else if e = 'b' then
          (parseStrBody fuel cs2).map (fun r => (Char.ofNat 8 :: r.1, r.2))
        else if e = 'f' then
          (parseStrBody fuel cs2).map (fun r => (Char.ofNat 12 :: r.1, r.2))
        else if e = 'n' then
          (parseStrBody fuel cs2).map (fun r => (Char.ofNat 10 :: r.1, r.2))
        else if e = 'r' then
          (parseStrBody fuel cs2).map (fun r => (Char.ofNat 13 :: r.1, r.2))
        else if e = 't' then
          (parseStrBody fuel cs2).map (fun r => (Char.ofNat 9 :: r.1, r.2))
        else if e = 'u' then
          match cs2 with
          | h1 :: h2 :: h3 :: h4 :: cs3 =>
            match hexVal h1, hexVal h2, hexVal h3, hexVal h4 with
            | some v1, some v2, some v3, some v4 =>
              if 55296 ≤ ((v1 * 16 + v2) * 16 + v3) * 16 + v4 ∧
                  ((v1 * 16 + v2) * 16 + v3) * 16 + v4 < 57344 then none
              else
                (parseStrBody fuel cs3).map
                  (fun r => (Char.ofNat (((v1 * 16 + v2) * 16 + v3) * 16 + v4) :: r.1, r.2))
            | _, _, _, _ => none
          | _ => none
        else none
    else if c.toNat < 32 then none
    else (parseStrBody fuel cs).map (fun r => (c :: r.1, r.2))

/-- Greedily read decimal digits into an accumulator. -/
def parseDigits : List Char → Nat → Nat × List Char
  | [], acc => (acc, [])
  | c :: cs, acc =>
    if isDigit c then parseDigits cs (acc * 10 + (c.toNat - 48)) else (acc, c :: cs)

/-- Parse an unsigned JSON integer: digits without a redundant leading
zero, not followed by a fraction or exponent (non-integer numbers are
outside the model). -/
def parseNumNat : List Char → Option (Nat × List Char)
  | [] => none
  | c :: cs =>
    if isDigit c then
      if c = '0' ∧ (match cs with | c2 :: _ => isDigit c2 | [] => false) = true then none
      else
        match parseDigits (c :: cs) 0 with
        | (n, rest) =>
          match rest with
          | r :: _ => if r = '.' ∨ r = 'e' ∨ r = 'E' then none else some (n, rest)
          | [] => some (n, rest)
    else none

/-- Parse a JSON integer with optional minus sign. -/
def parseNum : List Char → Option (Int × List Char)
  | [] => none
  | c :: cs =>
    if c = '-' then (parseNumNat cs).map (fun r => (-(r.1 : Int), r.2))
    else (parseNumNat (c :: cs)).map (fun r => ((r.1 : Int), r.2))

mutual

/-- Model of `JSON.parse`, value level, with a fuel bound on the nesting recursion
(each level consumes at least one character, so `input.length + 1` units
always suffice). -/
def parseVal : Nat → List Char → Option (Jval × List Char)
  | 0, _ => none
  | fuel + 1, cs =>
    match skipWs cs with
    | [] => none
    | c :: rest =>
      if c = 'n' then
        match rest with
        | 'u' :: 'l' :: 'l' :: rest2 => some (.jnull, rest2)
        | _ => none
      else if c = 't' then
        match rest with
        | 'r' :: 'u' :: 'e' :: rest2 => some (.jbool true, rest2)
        | _ => none
      else if c = 'f' then
        match rest with
        | 'a' :: 'l' :: 's' :: 'e' :: rest2 => some (.jbool false, rest2)
        | _ => none
      else if c = '"' then
        (parseStrBody rest.length rest).map (fun r => (.jstr r.1, r.2))
      else if c = '[' then
        match skipWs rest with
        | [] => none
        | c2 :: rest2 =>
          if c2 = ']' then some (.jarr [], rest2)
          else (parseElems fuel rest).map (fun r => (.jarr r.1, r.2))
      else if c = lbrace then
        match skipWs rest with
        | [] => none
        | c2 :: rest2 =>
          if c2 = rbrace then some (.jobj [], rest2)
          else (parseMembers fuel rest).map (fun r => (.jobj r.1, r.2))
      else parseNum (c :: rest) |>.map (fun r => (.jnum r.1, r.2))

/-- Elements of a non-empty array, after the opening bracket. -/
def parseElems : Nat → List Char → Option (List Jval × List Char)
  | 0, _ => none
  | fuel + 1, cs =>
    match parseVal fuel cs with
    | some (v, rest) =>
      match skipWs rest with
      | [] => none
      | c :: rest2 =>
        if c = ',' then (parseElems fuel rest2).map (fun r => (v :: r.1, r.2))
        else if c = ']' then some ([v], rest2)
        else none
    | none => none

/-- Members of a non-empty object, after the opening brace. -/
def parseMembers : Nat → List Char → Option (List (List Char × Jval) × List Char)
  | 0, _ => none
  | fuel + 1, cs =>
    match skipWs cs with
    | '"' :: rest =>
      match parseStrBody rest.length rest with
      | some (k, rest2) =>
        match skipWs rest2 with
        | [] => none
        | c3 :: rest3 =>
          if c3 = ':' then
            match parseVal fuel rest3 with
            | some (v, rest4) =>
              match skipWs rest4 with
              | [] => none
              | c5 :: rest5 =>
                if c5 = ',' then
                  (parseMembers fuel rest5).map (fun r => ((k, v) :: r.1, r.2))
                else if c5 = rbrace then some ([(k, v)], rest5)
                else none
            | none => none
          else none
      | none => none
    | _ => none

end

/-- Model of `JSON.parse`: parse a complete JSON text (trailing whitespace allowed,
anything else after the value is an error). -/
def parseJSON (s : String) : Option Jval :=
  match parseVal (s.length + 1) s.toList with
  | some (v, rest) => if skipWs rest = [] then some v else none
  | none => none

/-- Model of `encodeJSON` (mod.ts lines 118-120): `encode (JSON.stringify obj)`,
over the modelled JSON values. -/
def encodeJSON (v : Jval) : Option String :=
  encodeString (String.mk (stringify v))

/-- Model of `decodeJSON` (mod.ts lines 137-139): `JSON.parse (decodeToString
input)`. -/
def decodeJSON (input : String) : Option Jval :=
  (decodeToString input).bind parseJSON

/-! ### Decimal printing and parsing lemmas -/

theorem toNat_ofNat_small {n : Nat} (h : n < 55296) : (Char.ofNat n).toNat = n := by
  have hv : n.isValidChar := Or.inl h
  simp only [Char.ofNat, hv, dif_pos]
  rfl

theorem natDigitsRev_digits (n : Nat) :
    ∀ c ∈ natDigitsRev n, 48 ≤ c.toNat ∧ c.toNat ≤ 57 := by
  rw [natDigitsRev]
  split
  · next h =>
    intro c hc
    rw [List.mem_singleton] at hc
    subst hc
    rw [toNat_ofNat_small (by omega)]
    omega
  · next h =>
    intro c hc
    rcases List.mem_cons.mp hc with rfl | hc2
    · rw [toNat_ofNat_small (by omega)]
      have := Nat.mod_lt n (by omega : 0 < 10)
      omega
    · exact natDigitsRev_digits (n / 10) c hc2
termination_by n
decreasing_by omega

theorem natToChars_ne_nil (n : Nat) : natToChars n ≠ [] := by
  unfold natToChars
  rw [natDigitsRev]
  split <;> simp

theorem natToChars_big (n : Nat) (h : ¬ n < 10) :
    natToChars n = natToChars (n / 10) ++ [Char.ofNat (48 + n % 10)] := by
  unfold natToChars
  conv_lhs => rw [natDigitsRev]
  rw [dif_neg h, List.reverse_cons]

theorem natToChars_small (n : Nat) (h : n < 10) :
    natToChars n = [Char.ofNat (48 + n)] := by
  unfold natToChars
  rw [natDigitsRev, dif_pos h]
  rfl

theorem natToChars_digits (n : Nat) :
    ∀ c ∈ natToChars n, 48 ≤ c.toNat ∧ c.toNat ≤ 57 :=
  fun c hc => natDigitsRev_digits n c (List.mem_reverse.mp hc)

theorem natToChars_head (n : Nat) (h : 1 ≤ n) :
    ∃ c cs, natToChars n = c :: cs ∧ isDigit c = true ∧ c ≠ '0' := by
  by_cases h10 : n < 10
  · refine ⟨Char.ofNat (48 + n), [], natToChars_small n h10, ?_, ?_⟩
    · unfold isDigit
      rw [toNat_ofNat_small (by omega)]
      simp only [Bool.and_eq_true, decide_eq_true_eq]
      omega
    · intro hc
      have h2 := congrArg Char.toNat hc
      rw [toNat_ofNat_small (by omega)] at h2
      rw [show ('0').toNat = 48 from rfl] at h2
      omega
  · obtain ⟨c, cs, hcs, hd, hz⟩ := natToChars_head (n / 10) (by omega)
    refine ⟨c, cs ++ [Char.ofNat (48 + n % 10)], ?_, hd, hz⟩
    rw [natToChars_big n h10, hcs]
    rfl
termination_by n
decreasing_by omega

/-- The characters that may follow a serialized JSON number without
extending it: none, or one that is not a digit and not `.`/`e`/`E`. -/
def notFollow : List Char → Prop
  | [] => True
  | r :: _ => isDigit r = false ∧ r ≠ '.' ∧ r ≠ 'e' ∧ r ≠ 'E'

theorem parseDigits_stop (rest : List Char) (h : notFollow rest) (acc : Nat) :
    parseDigits rest acc = (acc, rest) := by
  cases rest with
  | nil => rfl
  | cons r rs =>
    simp only [parseDigits]
    rw [if_neg (by rw [h.1]; simp)]

theorem parseDigits_run (n : Nat) : ∀ (rest : List Char) (acc : Nat),
    parseDigits (natToChars n ++ rest) acc =
      parseDigits rest (acc * 10 ^ (natToChars n).length + n) := by
  by_cases h10 : n < 10
  · intro rest acc
    rw [natToChars_small n h10]
    show parseDigits (Char.ofNat (48 + n) :: rest) acc = _
    simp only [parseDigits]
    rw [if_pos (by
      unfold isDigit
      rw [toNat_ofNat_small (by omega)]
      simp only [Bool.and_eq_true, decide_eq_true_eq]
      omega)]
    have hval : acc * 10 + ((Char.ofNat (48 + n)).toNat - 48) =
        acc * 10 ^ ([Char.ofNat (48 + n)] : List Char).length + n := by
      rw [toNat_ofNat_small (by omega)]
      simp only [List.length_singleton, pow_one]
      omega
    rw [hval]
  · intro rest acc
    rw [natToChars_big n h10, List.append_assoc]
    rw [parseDigits_run (n / 10)]
    rw [List.singleton_append]
    simp only [parseDigits]
    rw [if_pos (by
      unfold isDigit
      rw [toNat_ofNat_small (by omega)]
      simp only [Bool.and_eq_true, decide_eq_true_eq]
      omega)]
    have hval : (acc * 10 ^ (natToChars (n / 10)).length + n / 10) * 10 +
        ((Char.ofNat (48 + n % 10)).toNat - 48) =
        acc * 10 ^ (natToChars (n / 10) ++ [Char.ofNat (48 + n % 10)]).length + n := by
      rw [toNat_ofNat_small (by omega), List.length_append, List.length_singleton,
        pow_succ, ← Nat.mul_assoc]
      generalize acc * 10 ^ (natToChars (n / 10)).length = K
      omega
    rw [hval]
termination_by n
decreasing_by omega

theorem parseNumNat_spec (n : Nat) (rest : List Char) (hrest : notFollow rest) :
    parseNumNat (natToChars n ++ rest) = some (n, rest) := by
  rcases Nat.eq_zero_or_pos n with rfl | hpos
  · rw [natToChars_small 0 (by omega)]
    show parseNumNat ('0' :: rest) = some (0, rest)
    simp only [parseNumNat]
    rw [if_pos (by decide)]
    rw [if_neg (by
      rintro ⟨-, hmatch⟩
      cases rest with
      | nil => simp at hmatch
      | cons r rs =>
        rw [show (match r :: rs with | c2 :: _ => isDigit c2 | [] => false) =
          isDigit r from rfl] at hmatch
        rw [hrest.1] at hmatch
        simp at hmatch)]
    rw [show ('0' :: rest) = natToChars 0 ++ rest from by
      rw [natToChars_small 0 (by omega)]; rfl]
    rw [parseDigits_run 0 rest 0, parseDigits_stop rest hrest]
    simp only [Nat.zero_mul, Nat.zero_add, Nat.add_zero]
    cases rest with
    | nil => rfl
    | cons r rs =>
      obtain ⟨-, h1, h2, h3⟩ := hrest
      show (if r = '.' ∨ r = 'e' ∨ r = 'E' then none
        else some ((0 : Nat), r :: rs)) = some ((0 : Nat), r :: rs)
      rw [if_neg (by rintro (rfl | rfl | rfl) <;> simp_all)]
  · obtain ⟨c, cs, hcs, hdig, hne0⟩ := natToChars_head n hpos
    rw [hcs]
    simp only [List.cons_append, parseNumNat]
    rw [if_pos hdig]
    rw [if_neg (fun hand => hne0 hand.1)]
    rw [show c :: (cs ++ rest) = natToChars n ++ rest from by rw [hcs]; rfl]
    rw [parseDigits_run n rest 0, parseDigits_stop rest hrest]
    simp only [Nat.zero_mul, Nat.zero_add]
    cases rest with
    | nil => rfl
    | cons r rs =>
      obtain ⟨-, h1, h2, h3⟩ := hrest
      show (if r = '.' ∨ r = 'e' ∨ r = 'E' then none
        else some (n, r :: rs)) = some (n, r :: rs)
      rw [if_neg (by rintro (rfl | rfl | rfl) <;> simp_all)]

theorem parseNum_spec (i : Int) (rest : List Char) (hrest : notFollow rest) :
    parseNum (intToChars i ++ rest) = some (i, rest) := by
  unfold intToChars
  by_cases hneg : i < 0
  · rw [if_pos hneg]
    simp only [List.cons_append, parseNum]
    rw [if_pos trivial, parseNumNat_spec i.natAbs rest hrest, Option.map_some']
    have : -((i.natAbs : Nat) : Int) = i := by omega
    rw [this]
  · rw [if_neg hneg]
    cases hsplit : natToChars i.natAbs with
    | nil => exact absurd hsplit (natToChars_ne_nil _)
    | cons c cs =>
      have hdig : 48 ≤ c.toNat ∧ c.toNat ≤ 57 :=
        natToChars_digits _ c (hsplit ▸ List.mem_cons_self c cs)
      simp only [List.cons_append, parseNum]
      rw [if_neg (by
        intro h
        have h2 := congrArg Char.toNat h
        rw [show ('-').toNat = 45 from rfl] at h2
        omega)]
      rw [← List.cons_append, ← hsplit, parseNumNat_spec i.natAbs rest hrest,
        Option.map_some']
      have : ((i.natAbs : Nat) : Int) = i := by omega
      rw [this]

/-! ### JSON string-literal round trip -/

theorem hexVal_hexDigit (v : Nat) (h : v < 16) : hexVal (hexDigit v) = some v := by
  unfold hexDigit hexVal
  by_cases h10 : v < 10
  · rw [if_pos h10, toNat_ofNat_small (by omega), if_pos (by omega)]
    congr 1
    omega
  · rw [if_neg h10, toNat_ofNat_small (by omega), if_neg (by omega), if_pos (by omega)]
    congr 1
    omega

theorem escapeChar_len_pos (c : Char) : 1 ≤ (escapeChar c).length := by
  unfold escapeChar
  split_ifs <;> simp

theorem len_le_escape (s : List Char) :
    s.length ≤ ((s.map escapeChar).flatten).length := by
  induction s with
  | nil => simp
  | cons c cs ih =>
    simp only [List.map_cons, List.flatten_cons, List.length_append, List.length_cons]
    have := escapeChar_len_pos c
    omega

theorem parseStrBody_escape (s : List Char) : ∀ (fuel : Nat) (rest : List Char),
    s.length + 1 ≤ fuel →
    parseStrBody fuel ((s.map escapeChar).flatten ++ '"' :: rest) = some (s, rest) := by
  induction s with
  | nil =>
    intro fuel rest hf
    cases fuel with
    | zero => exact absurd hf (by omega)
    | succ f =>
      show parseStrBody (f + 1) ('"' :: rest) = some ([], rest)
      simp [parseStrBody]
  | cons c cs ih =>
    intro fuel rest hf
    cases fuel with
    | zero => simp at hf
    | succ f =>
      have hf2 : cs.length + 1 ≤ f := by
        simp only [List.length_cons] at hf
        omega
      rw [List.map_cons, List.flatten_cons, List.append_assoc]
      have IH := ih f rest hf2
      by_cases h1 : c = '"'
      · subst h1
        rw [show escapeChar '"' = ['\\', '"'] from rfl]
        simp only [List.cons_append, List.nil_append]
        simp [parseStrBody, IH]
      · by_cases h2 : c = '\\'
        · subst h2
          rw [show escapeChar '\\' = ['\\', '\\'] from rfl]
          simp only [List.cons_append, List.nil_append]
          simp [parseStrBody, IH]
        · by_cases h3 : c.toNat = 8
          · have hc : Char.ofNat 8 = c := by rw [← h3, Char.ofNat_toNat]
            rw [show escapeChar c = ['\\', 'b'] from by
              unfold escapeChar; rw [if_neg h1, if_neg h2, if_pos h3]]
            subst hc
            simp only [List.cons_append, List.nil_append]
            simp [parseStrBody, IH]
          · by_cases h4 : c.toNat = 9
            · have hc : Char.ofNat 9 = c := by rw [← h4, Char.ofNat_toNat]
              rw [show escapeChar c = ['\\', 't'] from by
                unfold escapeChar; rw [if_neg h1, if_neg h2, if_neg h3, if_pos h4]]
              subst hc
              simp only [List.cons_append, List.nil_append]
              simp [parseStrBody, IH]
            · by_cases h5 : c.toNat = 10
              · have hc : Char.ofNat 10 = c := by rw [← h5, Char.ofNat_toNat]
                rw [show escapeChar c = ['\\', 'n'] from by
                  unfold escapeChar; rw [if_neg h1, if_neg h2, if_neg h3, if_neg h4,
                    if_pos h5]]
                subst hc
                simp only [List.cons_append, List.nil_append]
                simp [parseStrBody, IH]
              · by_cases h6 : c.toNat = 12
                · have hc : Char.ofNat 12 = c := by rw [← h6, Char.ofNat_toNat]
                  rw [show escapeChar c = ['\\', 'f'] from by
                    unfold escapeChar; rw [if_neg h1, if_neg h2, if_neg h3, if_neg h4,
                      if_neg h5, if_pos h6]]
                  subst hc
                  simp only [List.cons_append, List.nil_append]
                  simp [parseStrBody, IH]
                · by_cases h7 : c.toNat = 13
                  · have hc : Char.ofNat 13 = c := by rw [← h7, Char.ofNat_toNat]
                    rw [show escapeChar c = ['\\', 'r'] from by
                      unfold escapeChar; rw [if_neg h1, if_neg h2, if_neg h3, if_neg h4,
                        if_neg h5, if_neg h6, if_pos h7]]
                    subst hc
                    simp only [List.cons_append, List.nil_append]
                    simp [parseStrBody, IH]
                  · by_cases h8 : c.toNat < 32
                    · rw [show escapeChar c =
                          ['\\', 'u', '0', '0', hexDigit (c.toNat / 16),
                            hexDigit (c.toNat % 16)] from by
                        unfold escapeChar; rw [if_neg h1, if_neg h2, if_neg h3, if_neg h4,
                          if_neg h5, if_neg h6, if_neg h7, if_pos h8]]
                      simp only [List.cons_append, List.nil_append]
                      simp only [parseStrBody]
                      rw [hexVal_hexDigit (c.toNat / 16) (by omega),
                        hexVal_hexDigit (c.toNat % 16) (by omega)]
                      simp only [show hexVal '0' = some 0 from rfl]
                      show (if 55296 ≤ ((0 * 16 + 0) * 16 + c.toNat / 16) * 16 +
                            c.toNat % 16 ∧
                            ((0 * 16 + 0) * 16 + c.toNat / 16) * 16 + c.toNat % 16 <
                              57344 then none
                          else ((parseStrBody f
                              ((cs.map escapeChar).flatten ++ '"' :: rest)).map
                            (fun r => (Char.ofNat (((0 * 16 + 0) * 16 + c.toNat / 16) *
                              16 + c.toNat % 16) :: r.1, r.2)))) = some (c :: cs, rest)
                      rw [if_neg (by omega)]
                      have hv : ((0 * 16 + 0) * 16 + c.toNat / 16) * 16 + c.toNat % 16 =
                          c.toNat := by omega
                      rw [hv, Char.ofNat_toNat, IH, Option.map_some']
                    · rw [show escapeChar c = [c] from by
                        unfold escapeChar; rw [if_neg h1, if_neg h2, if_neg h3, if_neg h4,
                          if_neg h5, if_neg h6, if_neg h7, if_neg h8]]
                      simp only [List.cons_append, List.nil_append]
                      simp [parseStrBody, h1, h2, h8, IH]

/-! ### Fuel measure for the JSON parser -/

mutual

/-- Fuel needed by `parseVal` to parse `stringify v`. -/
def jfuel : Jval → Nat
  | .jnull => 1
  | .jbool _ => 1
  | .jnum _ => 1
  | .jstr _ => 1
  | .jarr xs => 1 + jfuelElems xs
  | .jobj ms => 1 + jfuelMembers ms

/-- Fuel needed by `parseElems` for a serialized element list. -/
def jfuelElems : List Jval → Nat
  | [] => 0
  | x :: xs => 1 + jfuel x + jfuelElems xs

/-- Fuel needed by `parseMembers` for a serialized member list. -/
def jfuelMembers : List (List Char × Jval) → Nat
  | [] => 0
  | (_, v) :: ms => 1 + jfuel v + jfuelMembers ms

end

theorem strLit_len (k : List Char) : (strLit k).length =
    ((k.map escapeChar).flatten).length + 2 := by
  simp [strLit]

mutual

theorem jfuel_le : ∀ v : Jval, jfuel v ≤ (stringify v).length
  | .jnull => by simp [jfuel, stringify]
  | .jbool true => by simp [jfuel, stringify]
  | .jbool false => by simp [jfuel, stringify]
  | .jnum i => by
    simp only [jfuel, stringify]
    unfold intToChars
    split
    · simp only [List.length_cons]
      omega
    · have h2 := natToChars_ne_nil i.natAbs
      cases h : natToChars i.natAbs with
      | nil => exact absurd h h2
      | cons a l => simp
  | .jstr s => by simp [jfuel, stringify, strLit]
  | .jarr xs => by
    have h := jfuelElems_le xs
    simp only [jfuel, stringify, List.length_cons, List.length_append,
      List.length_singleton]
    omega
  | .jobj ms => by
    have h := jfuelMembers_le ms
    simp only [jfuel, stringify, List.length_cons, List.length_append,
      List.length_singleton]
    omega

theorem jfuelElems_le : ∀ xs : List Jval,
    jfuelElems xs ≤ (stringifyElems xs).length + 1
  | [] => by simp [jfuelElems, stringifyElems]
  | [x] => by
    have h := jfuel_le x
    simp only [jfuelElems, stringifyElems]
    omega
  | x :: y :: ys => by
    have h1 := jfuel_le x
    have h2 := jfuelElems_le (y :: ys)
    simp only [jfuelElems, stringifyElems, List.length_append, List.length_cons] at h2 ⊢
    omega

theorem jfuelMembers_le : ∀ ms : List (List Char × Jval),
    jfuelMembers ms ≤ (stringifyMembers ms).length + 1
  | [] => by simp [jfuelMembers, stringifyMembers]
  | [(k, v)] => by
    have h := jfuel_le v
    simp only [jfuelMembers, stringifyMembers, List.length_append, List.length_cons]
    omega
  | (k, v) :: m :: ms => by
    have h1 := jfuel_le v
    have h2 := jfuelMembers_le (m :: ms)
    simp only [jfuelMembers, stringifyMembers, List.length_append,
      List.length_cons] at h2 ⊢
    omega

end

/-! ### Head characters and whitespace for the parser round trip -/

theorem skipWs_cons (c : Char) (l : List Char) (h : jsonWs c = false) :
    skipWs (c :: l) = c :: l := by
  simp [skipWs, List.dropWhile_cons, h]

theorem stringify_head (v : Jval) :
    ∃ c cs, stringify v = c :: cs ∧ jsonWs c = false ∧ c ≠ ']' := by
  cases v with
  | jnull => exact ⟨'n', _, rfl, by decide, by decide⟩
  | jbool b => cases b with
    | true => exact ⟨'t', _, rfl, by decide, by decide⟩
    | false => exact ⟨'f', _, rfl, by decide, by decide⟩
  | jnum i =>
    simp only [stringify]
    unfold intToChars
    by_cases hneg : i < 0
    · rw [if_pos hneg]
      exact ⟨'-', _, rfl, by decide, by decide⟩
    · rw [if_neg hneg]
      cases hsp : natToChars i.natAbs with
      | nil => exact absurd hsp (natToChars_ne_nil _)
      | cons c cs =>
        have hdig : 48 ≤ c.toNat ∧ c.toNat ≤ 57 :=
          natToChars_digits _ c (hsp ▸ List.mem_cons_self c cs)
        refine ⟨c, cs, rfl, ?_, ?_⟩
        · unfold jsonWs
          simp only [Bool.or_eq_false_iff, decide_eq_false_iff_not]
          omega
        · intro h
          have h2 := congrArg Char.toNat h
          rw [show (']').toNat = 93 from rfl] at h2
          omega
  | jstr s => exact ⟨'"', _, rfl, by decide, by decide⟩
  | jarr xs => exact ⟨'[', _, rfl, by decide, by decide⟩
  | jobj ms => exact ⟨lbrace, _, rfl, by decide, by decide⟩

theorem notFollow_rsep (rs : List Char) :
    notFollow [] ∧ notFollow (',' :: rs) ∧ notFollow (']' :: rs) ∧
      notFollow (rbrace :: rs) :=
  ⟨trivial, ⟨by decide, by decide, by decide, by decide⟩,
    ⟨by decide, by decide, by decide, by decide⟩,
    ⟨by decide, by decide, by decide, by decide⟩⟩

/-- The JSON parser reads back what `stringify` wrote: all three parsing
levels at once, by induction on the fuel. -/
theorem parse_mutual : ∀ fuel : Nat,
    (∀ v : Jval, jfuel v ≤ fuel → ∀ rest : List Char, notFollow rest →
      parseVal fuel (stringify v ++ rest) = some (v, rest)) ∧
    (∀ (x : Jval) (xs : List Jval), jfuelElems (x :: xs) ≤ fuel →
      ∀ rest : List Char,
      parseElems fuel (stringifyElems (x :: xs) ++ ']' :: rest) =
        some (x :: xs, rest)) ∧
    (∀ (m : List Char × Jval) (ms : List (List Char × Jval)),
      jfuelMembers (m :: ms) ≤ fuel → ∀ rest : List Char,
      parseMembers fuel (stringifyMembers (m :: ms) ++ rbrace :: rest) =
        some (m :: ms, rest)) := by
  intro fuel
  induction fuel with
  | zero =>
    refine ⟨?_, ?_, ?_⟩
    · intro v hv rest hrest
      exfalso
      cases v <;> simp [jfuel] at hv
    · intro x xs h rest
      exfalso
      simp [jfuelElems] at h
    · intro m ms h rest
      exfalso
      obtain ⟨k, v⟩ := m
      simp [jfuelMembers] at h
  | succ f ih =>
    obtain ⟨ihV, ihE, ihM⟩ := ih
    refine ⟨?_, ?_, ?_⟩
    · -- parseVal
      intro v hv rest hrest
      cases v with
      | jnull =>
        show parseVal (f + 1) ('n' :: 'u' :: 'l' :: 'l' :: rest) = some (.jnull, rest)
        simp only [parseVal]
        rw [skipWs_cons _ _ (by decide)]
        rfl
      | jbool b =>
        cases b with
        | true =>
          show parseVal (f + 1) ('t' :: 'r' :: 'u' :: 'e' :: rest) =
            some (.jbool true, rest)
          simp only [parseVal]
          rw [skipWs_cons _ _ (by decide)]
          rfl
        | false =>
          show parseVal (f + 1) ('f' :: 'a' :: 'l' :: 's' :: 'e' :: rest) =
            some (.jbool false, rest)
          simp only [parseVal]
          rw [skipWs_cons _ _ (by decide)]
          rfl
      | jstr s =>
        show parseVal (f + 1)
          (('"' :: ((s.map escapeChar).flatten ++ ['"'])) ++ rest) = some (.jstr s, rest)
        simp only [List.cons_append, List.append_assoc, List.singleton_append,
          List.nil_append]
        simp only [parseVal]
        rw [skipWs_cons _ _ (by decide)]
        simp only []
        rw [parseStrBody_escape s _ rest (by
          have := len_le_escape s
          simp only [List.length_append, List.length_cons]
          omega)]
        rw [if_neg (by decide), if_neg (by decide), if_neg (by decide),
          if_pos trivial, Option.map_some']
      | jnum i =>
        have hhead : ∃ c cs, intToChars i = c :: cs ∧
            (c.toNat = 45 ∨ (48 ≤ c.toNat ∧ c.toNat ≤ 57)) := by
          unfold intToChars
          by_cases hneg : i < 0
          · rw [if_pos hneg]
            exact ⟨'-', _, rfl, Or.inl rfl⟩
          · rw [if_neg hneg]
            cases hsp : natToChars i.natAbs with
            | nil => exact absurd hsp (natToChars_ne_nil _)
            | cons c cs =>
              exact ⟨c, cs, rfl,
                Or.inr (natToChars_digits _ c (hsp ▸ List.mem_cons_self c cs))⟩
        obtain ⟨c, cs, hsp, hc⟩ := hhead
        show parseVal (f + 1) (intToChars i ++ rest) = some (.jnum i, rest)
        rw [hsp, List.cons_append]
        simp only [parseVal]
        rw [skipWs_cons _ _ (by
          unfold jsonWs
          simp only [Bool.or_eq_false_iff, decide_eq_false_iff_not]
          rcases hc with h | h <;> omega)]
        simp only []
        rw [if_neg (by
          intro h
          have h2 := congrArg Char.toNat h
          rw [show ('n').toNat = 110 from rfl] at h2
          omega)]
        rw [if_neg (by
          intro h
          have h2 := congrArg Char.toNat h
          rw [show ('t').toNat = 116 from rfl] at h2
          omega)]
        rw [if_neg (by
          intro h
          have h2 := congrArg Char.toNat h
          rw [show ('f').toNat = 102 from rfl] at h2
          omega)]
        rw [if_neg (by
          intro h
          have h2 := congrArg Char.toNat h
          rw [show ('"').toNat = 34 from rfl] at h2
          omega)]
        rw [if_neg (by
          intro h
          have h2 := congrArg Char.toNat h
          rw [show ('[').toNat = 91 from rfl] at h2
          omega)]
        rw [if_neg (by
          intro h
          have h2 := congrArg Char.toNat h
          rw [show lbrace.toNat = 123 from rfl] at h2
          omega)]
        rw [← List.cons_append, ← hsp, parseNum_spec i rest hrest, Option.map_some']
      | jarr xs =>
        cases xs with
        | nil =>
          show parseVal (f + 1) ('[' :: ']' :: rest) = some (.jarr [], rest)
          simp only [parseVal]
          rw [skipWs_cons _ _ (by decide)]
          show (if (']' : Char) = ']' then some (Jval.jarr [], rest)
            else (parseElems f (']' :: rest)).map (fun r => (Jval.jarr r.1, r.2))) =
            some (Jval.jarr [], rest)
          rw [if_pos rfl]
        | cons x xs' =>
          have hshape : stringify (.jarr (x :: xs')) ++ rest =
              '[' :: (stringifyElems (x :: xs') ++ ']' :: rest) := by
            show ('[' :: stringifyElems (x :: xs') ++ [']']) ++ rest = _
            simp [List.append_assoc]
          rw [show stringify (.jarr (x :: xs')) ++ rest =
            '[' :: (stringifyElems (x :: xs') ++ ']' :: rest) from hshape]
          simp only [parseVal]
          rw [skipWs_cons _ _ (by decide)]
          simp only []
          rw [if_neg (by decide), if_neg (by decide), if_neg (by decide),
            if_neg (by decide), if_pos trivial]
          obtain ⟨c0, cs0, hsp0, hws0, hbr0⟩ := stringify_head x
          obtain ⟨tail, htail⟩ : ∃ t, stringifyElems (x :: xs') = stringify x ++ t := by
            cases xs' with
            | nil => exact ⟨[], (List.append_nil _).symm⟩
            | cons y ys => exact ⟨_, rfl⟩
          rw [htail, hsp0]
          simp only [List.cons_append, List.append_assoc]
          rw [skipWs_cons _ _ hws0]
          simp only []
          rw [if_neg hbr0]
          rw [show c0 :: (cs0 ++ (tail ++ ']' :: rest)) =
              stringifyElems (x :: xs') ++ ']' :: rest from by
            rw [htail, hsp0]
            simp [List.append_assoc]]
          rw [ihE x xs' (by simp only [jfuel] at hv; omega) rest, Option.map_some']
      | jobj ms =>
        cases ms with
        | nil =>
          show parseVal (f + 1) (lbrace :: rbrace :: rest) = some (.jobj [], rest)
          simp only [parseVal]
          rw [skipWs_cons _ _ (by decide)]
          rfl
        | cons m ms' =>
          obtain ⟨k, v⟩ := m
          have hshape : stringify (.jobj ((k, v) :: ms')) ++ rest =
              lbrace :: (stringifyMembers ((k, v) :: ms') ++ rbrace :: rest) := by
            show (lbrace :: stringifyMembers ((k, v) :: ms') ++ [rbrace]) ++ rest = _
            simp [List.append_assoc]
          rw [hshape]
          simp only [parseVal]
          rw [skipWs_cons _ _ (by decide)]
          simp only []
          rw [if_neg (by decide), if_neg (by decide), if_neg (by decide),
            if_neg (by decide), if_neg (by decide), if_pos trivial]
          obtain ⟨t, ht⟩ : ∃ t, stringifyMembers ((k, v) :: ms') =
              '"' :: ((k.map escapeChar).flatten ++ '"' :: t) := by
            cases ms' with
            | nil =>
              refine ⟨':' :: stringify v, ?_⟩
              show strLit k ++ ':' :: stringify v = _
              simp [strLit, List.append_assoc]
            | cons m2 ms2 =>
              refine ⟨':' :: (stringify v ++ ',' :: stringifyMembers (m2 :: ms2)), ?_⟩
              show strLit k ++ ':' :: stringify v ++ ',' :: stringifyMembers (m2 :: ms2) = _
              simp [strLit, List.append_assoc]
          rw [ht]
          simp only [List.cons_append, List.append_assoc]
          rw [skipWs_cons _ _ (by decide)]
          simp only []
          rw [if_neg (by decide)]
          rw [show ('"' : Char) :: ((k.map escapeChar).flatten ++ ('"' :: (t ++ rbrace :: rest))) =
              stringifyMembers ((k, v) :: ms') ++ rbrace :: rest from by
            rw [ht]
            simp [List.append_assoc]]
          rw [ihM (k, v) ms' (by simp only [jfuel] at hv; omega) rest, Option.map_some']
    · -- parseElems
      intro x xs hfe rest
      simp only [jfuelElems] at hfe
      cases xs with
      | nil =>
        show parseElems (f + 1) (stringify x ++ ']' :: rest) = some ([x], rest)
        simp only [parseElems]
        rw [ihV x (by omega) (']' :: rest) (notFollow_rsep rest).2.2.1]
        simp only []
        rw [skipWs_cons _ _ (by decide)]
        simp only []
        rw [if_neg (by decide), if_pos trivial]
      | cons y ys =>
        show parseElems (f + 1)
          ((stringify x ++ ',' :: stringifyElems (y :: ys)) ++ ']' :: rest) =
          some (x :: y :: ys, rest)
        simp only [List.append_assoc, List.cons_append]
        simp only [parseElems]
        rw [ihV x (by omega) (',' :: (stringifyElems (y :: ys) ++ ']' :: rest))
          (notFollow_rsep _).2.1]
        simp only []
        rw [skipWs_cons _ _ (by decide)]
        simp only []
        rw [if_pos trivial]
        rw [ihE y ys (by simp only [jfuelElems] at hfe ⊢; omega) rest, Option.map_some']
    · -- parseMembers
      intro m ms hfm rest
      obtain ⟨k, v⟩ := m
      simp only [jfuelMembers] at hfm
      cases ms with
      | nil =>
        show parseMembers (f + 1)
          ((strLit k ++ ':' :: stringify v) ++ rbrace :: rest) = some ([(k, v)], rest)
        simp only [strLit, List.cons_append, List.append_assoc, List.singleton_append,
          List.nil_append]
        simp only [parseMembers]
        rw [skipWs_cons _ _ (by decide)]
        simp only []
        rw [parseStrBody_escape k _ _ (by
          have := len_le_escape k
          simp only [List.length_append, List.length_cons]
          omega)]
        simp only []
        rw [skipWs_cons _ _ (by decide)]
        simp only []
        rw [if_pos trivial]
        rw [ihV v (by omega) (rbrace :: rest) (notFollow_rsep rest).2.2.2]
        simp only []
        rw [skipWs_cons _ _ (by decide)]
        simp only []
        rw [if_neg (by decide), if_pos trivial]
      | cons m2 ms2 =>
        show parseMembers (f + 1)
          ((strLit k ++ ':' :: stringify v ++ ',' :: stringifyMembers (m2 :: ms2)) ++
            rbrace :: rest) = some ((k, v) :: m2 :: ms2, rest)
        simp only [strLit, List.cons_append, List.append_assoc, List.singleton_append,
          List.nil_append]
        simp only [parseMembers]
        rw [skipWs_cons _ _ (by decide)]
        simp only []
        rw [parseStrBody_escape k _ _ (by
          have := len_le_escape k
          simp only [List.length_append, List.length_cons]
          omega)]
        simp only []
        rw [skipWs_cons _ _ (by decide)]
        simp only []
        rw [if_pos trivial]
        rw [ihV v (by omega) (',' :: (stringifyMembers (m2 :: ms2) ++ rbrace :: rest))
          (notFollow_rsep _).2.1]
        simp only []
        rw [skipWs_cons _ _ (by decide)]
        simp only []
        rw [if_pos trivial]
        rw [ihM m2 ms2 (by simp only [jfuelMembers] at hfm ⊢; omega) rest,
          Option.map_some']

/-- C7: `decodeJSON (encodeJSON v) = v` for every modelled JSON value
(objects, arrays, strings, booleans, null and integer numbers, including
the empty object and arbitrarily nested structures). -/
theorem decodeJSON_encodeJSON (v : Jval) :
    (encodeJSON v).bind decodeJSON = some v := by
  unfold encodeJSON decodeJSON
  have h := encodeString_decodeToString (String.mk (stringify v))
  cases henc : encodeString (String.mk (stringify v)) with
  | none =>
    rw [henc] at h
    simp at h
  | some e =>
    rw [henc] at h
    show (decodeToString e).bind parseJSON = some v
    rw [show decodeToString e = some (String.mk (stringify v)) from h]
    show parseJSON (String.mk (stringify v)) = some v
    unfold parseJSON
    have hfuel : jfuel v ≤ (String.mk (stringify v)).length + 1 := by
      have := jfuel_le v
      show jfuel v ≤ (stringify v).length + 1
      omega
    have hp := (parse_mutual ((String.mk (stringify v)).length + 1)).1 v hfuel [] trivial
    rw [List.append_nil] at hp
    rw [show (String.mk (stringify v)).toList = stringify v from rfl, hp]
    rfl

end Base64Url
